import Mathlib

/-!
Shallow embedding of pointlander/lemma (main.go) over the reals.

The program builds the Gram matrix of a vector set, row-normalizes a copy of
it with a softmax into an attention matrix, multiplies that with the data to
get the attention output, eigen-decomposes the raw Gram matrix, and compares
the magnitudes of eigenvector column 0 with the first feature column of the
attention output using cosine similarity, over one reference trial and 128
seeded synthetic trials.
-/

namespace Lemma

/-- Scaling factor for the softmax, from main.go: S = 1.0 - 1e-300. -/
noncomputable def S : ℝ := 1 - 1e-300

/-- Running maximum of the softmax, from main.go lines 118-123: the
accumulator starts at 0.0 and is replaced whenever a strictly larger
value is seen. -/
noncomputable def runMax (values : List ℝ) : ℝ :=
  values.foldl (fun m v => if v > m then v else m) 0

/-- Softmax from main.go lines 117-133: shift by s = runMax * S,
exponentiate each entry, then divide each by the total. -/
noncomputable def softmax (values : List ℝ) : List ℝ :=
  let s := runMax values * S
  let exps := values.map (fun v => Real.exp (v - s))
  exps.map (fun e => e / exps.sum)

/-- Dot product from main.go lines 135-141: sum of componentwise products
over the common length. -/
def dot (a b : List ℝ) : ℝ :=
  (List.zipWith (fun x y => x * y) a b).sum

/-- Cosine similarity from main.go lines 143-154 (function cs): returns 0
when either squared norm is nonpositive, otherwise the dot product divided
by the product of the square roots of the squared norms. -/
noncomputable def cs (a b : List ℝ) : ℝ :=
  let ab := dot a b
  let aa := dot a a
  let bb := dot b b
  if aa ≤ 0 then 0
  else if bb ≤ 0 then 0
  else ab / (Real.sqrt aa * Real.sqrt bb)

/-- Fisher record from main.go lines 26-31. -/
structure Fisher where
  Measures : List ℝ
  Label : String
  Cluster : ℤ
  Index : ℤ

/-- Random from main.go lines 98-109: builds 150 records whose 4 measures
are successive outputs of a generator freshly seeded with the given seed.
The generator itself lives in the standard library, so it is abstracted as
a stream: stream seed k is the k-th Float64 drawn after seeding with seed;
record i, component ii consumes draw 4*i+ii, matching the loop order. -/
def Random (stream : ℤ → ℕ → ℝ) (seed : ℤ) : List Fisher :=
  (List.range 150).map (fun i =>
    { Measures := (List.range 4).map (fun ii => stream seed (4 * i + ii))
      Label := toString i
      Cluster := 0
      Index := (i : ℤ) })

/-- Gram matrix from main.go lines 162-164: adj.Mul(a, a.T()), the data
matrix times its own transpose. -/
def gram {n d : ℕ} (a : Matrix (Fin n) (Fin d) ℝ) : Matrix (Fin n) (Fin n) ℝ :=
  a * a.transpose

/-- Heap of the two n×n matrices live inside process (main.go lines
163-174): adj holds the Gram matrix, cp the copy that the softmax loop
rewrites row by row. -/
structure Heap (n : ℕ) where
  adj : Matrix (Fin n) (Fin n) ℝ
  cp : Matrix (Fin n) (Fin n) ℝ

/-- Row r of a matrix read out as a list, as the loop body of main.go
lines 167-171 does before calling softmax. -/
noncomputable def rowList {n : ℕ} (M : Matrix (Fin n) (Fin n) ℝ) (r : Fin n) : List ℝ :=
  (List.finRange n).map (M r)

/-- One iteration of the softmax loop (main.go lines 167-174): read row r
of cp, softmax it, and write it back into cp with SetRow; adj is untouched. -/
noncomputable def softmaxStep {n : ℕ} (h : Heap n) (r : Fin n) : Heap n :=
  { h with cp := Matrix.updateRow h.cp r (fun j => (softmax (rowList h.cp r)).getD (j : ℕ) 0) }

/-- Softmax loop of process over all rows r = 0..n-1. -/
noncomputable def softmaxLoop {n : ℕ} (h : Heap n) : Heap n :=
  (List.finRange n).foldl softmaxStep h

/-- Heap state right after the softmax loop of process, starting from
cp.Copy(adj) with adj = a * aᵀ. -/
noncomputable def processHeap {n d : ℕ} (a : Matrix (Fin n) (Fin d) ℝ) : Heap n :=
  softmaxLoop { adj := gram a, cp := gram a }

/-- Matrix handed to eig.Factorize at main.go line 179: the adj field of
the heap after the softmax loop has run. -/
noncomputable def factorizeInput {n d : ℕ} (a : Matrix (Fin n) (Fin d) ℝ) : Matrix (Fin n) (Fin n) ℝ :=
  (processHeap a).adj

/-- Threshold of main.go lines 195 and 201: .95. -/
noncomputable def threshold : ℝ := 0.95

/-- Seeds of the synthetic trials, from main.go lines 198-199: the loop
index i runs over range 128 and the seed is int64(i + 1). -/
def suiteSeeds : List ℤ :=
  (List.range 128).map (fun i : ℕ => (i : ℤ) + 1)

/-- Trial counting of main (lines 194-204): count starts at 0, the
reference trial increments it when its similarity is strictly below the
threshold, then each seeded trial in order does the same. refSim is the
similarity of the reference trial and p the similarity each seed yields. -/
noncomputable def runSuite (refSim : ℝ) (p : ℤ → ℝ) : ℕ :=
  suiteSeeds.foldl (fun c s => if p s < threshold then c + 1 else c)
    (if refSim < threshold then 1 else 0)

/-- Denominator of the printed report at main.go line 205. -/
def totalCount : ℕ := 129

/-- Result of a right eigen-decomposition as gonum's mat.Eigen hands it
back through Values and VectorsTo: n eigenvalues and a complex n×n matrix
whose column k is the eigenvector paired with eigenvalue k. -/
structure EigenResult (n : ℕ) where
  values : Fin n → ℂ
  vectors : Matrix (Fin n) (Fin n) ℂ

/-- Validity of a right eigen-decomposition of the real matrix G: every
column of the eigenvector matrix is a nonzero eigenvector of G for its
paired eigenvalue. gonum promises no ordering of the eigenvalues. -/
def IsEigenDecomp {n : ℕ} (G : Matrix (Fin n) (Fin n) ℝ) (res : EigenResult n) : Prop :=
  ∀ k : Fin n,
    (fun r => res.vectors r k) ≠ 0 ∧
    Matrix.mulVec (G.map (fun x => (x : ℂ))) (fun r => res.vectors r k) =
      fun r => res.values k * res.vectors r k

/-- Signal I built by process at main.go lines 185-189: the magnitude of
row r, column 0 of the eigenvector matrix, always column 0. -/
noncomputable def codeSignal {n : ℕ} [NeZero n] (res : EigenResult n) : Fin n → ℝ :=
  fun r => Complex.abs (res.vectors r 0)

/-- Signal the spec asks for, following its words: the magnitudes of the
eigenvector column paired with the eigenvalue of largest magnitude (the
dominant eigenvalue), at a column k that is dominant. -/
noncomputable def specDominantSignal {n : ℕ} (res : EigenResult n) (k : Fin n) : Fin n → ℝ :=
  fun r => Complex.abs (res.vectors r k)

/-- Dominance of eigenvalue index k in a decomposition result: no other
eigenvalue has larger magnitude. -/
def IsDominantIndex {n : ℕ} (res : EigenResult n) (k : Fin n) : Prop :=
  ∀ m : Fin n, Complex.abs (res.values m) ≤ Complex.abs (res.values k)

/-- Concrete 2×4 data matrix of two iris-shaped rows (1,0,0,0) and
(0,2,0,0), giving the Gram matrix diag(1,4). -/
def aEx : Matrix (Fin 2) (Fin 4) ℝ :=
  Matrix.of !![1, 0, 0, 0; 0, 2, 0, 0]

/-- Eigen-decomposition of gram aEx with the identity as eigenvector
matrix and eigenvalues (1, 4): a valid output the decomposition routine
may return, in which column 0 is not dominant. -/
def resEx : EigenResult 2 :=
  { values := fun k => if k = 0 then 1 else 4
    vectors := Matrix.of !![1, 0; 0, 1] }

lemma dot_cons (x y : ℝ) (a b : List ℝ) : dot (x :: a) (y :: b) = x * y + dot a b := by
  simp [dot]

lemma dot_comm (a b : List ℝ) : dot a b = dot b a := by
  induction a generalizing b with
  | nil => cases b <;> simp [dot]
  | cons x a ih =>
    cases b with
    | nil => simp [dot]
    | cons y b => rw [dot_cons, dot_cons, ih, mul_comm]

lemma dot_self_nonneg (a : List ℝ) : 0 ≤ dot a a := by
  induction a with
  | nil => simp [dot]
  | cons x a ih => rw [dot_cons]; nlinarith [mul_self_nonneg x]

lemma dot_self_pos (a : List ℝ) (x : ℝ) (hx : x ∈ a) (hx0 : x ≠ 0) : 0 < dot a a := by
  induction a with
  | nil => simp at hx
  | cons y a ih =>
    rw [dot_cons]
    rcases List.mem_cons.mp hx with h | h
    · subst h; nlinarith [dot_self_nonneg a, mul_self_pos.mpr hx0]
    · nlinarith [ih h, mul_self_nonneg y]

lemma dot_sq_le (a b : List ℝ) : (dot a b) ^ 2 ≤ dot a a * dot b b := by
  induction a generalizing b with
  | nil => simp [dot]
  | cons x a ih =>
    cases b with
    | nil => simp [dot]
    | cons y b =>
      have haa := dot_self_nonneg a
      have hbb := dot_self_nonneg b
      have hC := ih b
      rw [dot_cons, dot_cons, dot_cons]
      rcases hbb.eq_or_gt with hB0 | hBpos
      · have hsq : (dot a b) ^ 2 = 0 := by
          refine le_antisymm ?_ (sq_nonneg _)
          calc (dot a b) ^ 2 ≤ dot a a * dot b b := hC
          _ = 0 := by rw [hB0, mul_zero]
        have hC0 : dot a b = 0 := by
          have := sq_eq_zero_iff.mp hsq
          exact this
        rw [hC0, hB0]
        nlinarith [mul_self_nonneg x, mul_self_nonneg y, mul_nonneg haa (mul_self_nonneg y)]
      · nlinarith [sq_nonneg (x * dot b b - y * dot a b),
          mul_nonneg (sub_nonneg.mpr hC) (sq_nonneg y),
          mul_nonneg (sub_nonneg.mpr hC) hbb]

/-- C7: the Gram matrix built from any vector set satisfies
G[i][j] = G[j][i] for all indices, because it is the data matrix times its
own transpose. -/
theorem C7_gram_symmetric {n d : ℕ} (a : Matrix (Fin n) (Fin d) ℝ) (i j : Fin n) :
    gram a i j = gram a j i := by
  unfold gram
  rw [Matrix.mul_apply, Matrix.mul_apply]
  simp only [Matrix.transpose_apply]
  exact Finset.sum_congr rfl (fun k _ => mul_comm _ _)

/-- C5: cosine similarity returns 0 when either vector has zero squared
norm, and otherwise returns the dot product divided by the product of the
Euclidean norms. -/
theorem C5_cs_degenerate (a b : List ℝ) (hlen : a.length = b.length) :
    (dot a a = 0 ∨ dot b b = 0 → cs a b = 0)
    ∧ (dot a a ≠ 0 → dot b b ≠ 0 →
        cs a b = dot a b / (Real.sqrt (dot a a) * Real.sqrt (dot b b))) := by
  constructor
  · rintro (h | h)
    · simp [cs, h]
    · rcases le_or_lt (dot a a) 0 with h1 | h1
      · simp [cs, h1]
      · simp [cs, not_le.mpr h1, h]
  · intro ha hb
    have h1 : ¬ dot a a ≤ 0 := not_le.mpr (lt_of_le_of_ne (dot_self_nonneg a) (Ne.symm ha))
    have h2 : ¬ dot b b ≤ 0 := not_le.mpr (lt_of_le_of_ne (dot_self_nonneg b) (Ne.symm hb))
    simp [cs, h1, h2]

/-- C5 witness: the all-zero vector paired with (1,1) has equal length,
zero squared norm, and cosine similarity 0. -/
theorem C5_witness :
    (([(0:ℝ), 0].length = [(1:ℝ), 1].length) ∧ dot [(0:ℝ), 0] [(0:ℝ), 0] = 0)
    ∧ cs [(0:ℝ), 0] [(1:ℝ), 1] = 0 := by
  refine ⟨⟨by simp, by norm_num [dot]⟩, ?_⟩
  exact (C5_cs_degenerate [(0:ℝ), 0] [(1:ℝ), 1] (by simp)).1 (Or.inl (by norm_num [dot]))

/-- C6: cosine similarity is symmetric, bounded in the interval from -1
to 1, and equals 1 when both arguments are the same vector with a nonzero
entry. -/
theorem C6_cs_properties (a b : List ℝ) (hlen : a.length = b.length) :
    cs a b = cs b a
    ∧ (-1 ≤ cs a b ∧ cs a b ≤ 1)
    ∧ (a = b → (∃ x ∈ a, x ≠ 0) → cs a b = 1) := by
  refine ⟨?_, ?_, ?_⟩
  · by_cases haa : dot a a ≤ 0 <;> by_cases hbb : dot b b ≤ 0 <;>
      simp [cs, haa, hbb, dot_comm a b, mul_comm]
  · by_cases haa : dot a a ≤ 0
    · simp [cs, haa]
    · by_cases hbb : dot b b ≤ 0
      · simp [cs, haa, hbb]
      · have haa' : 0 < dot a a := not_le.mp haa
        have hbb' : 0 < dot b b := not_le.mp hbb
        have hD : 0 < Real.sqrt (dot a a) * Real.sqrt (dot b b) :=
          mul_pos (Real.sqrt_pos.mpr haa') (Real.sqrt_pos.mpr hbb')
        have hcs2 : (dot a b) ^ 2 ≤ dot a a * dot b b := dot_sq_le a b
        have habs : |dot a b| ≤ Real.sqrt (dot a a) * Real.sqrt (dot b b) := by
          rw [← Real.sqrt_sq_eq_abs, ← Real.sqrt_mul (dot_self_nonneg a)]
          exact Real.sqrt_le_sqrt hcs2
        have hcs : cs a b = dot a b / (Real.sqrt (dot a a) * Real.sqrt (dot b b)) := by
          simp [cs, haa, hbb]
        rw [hcs]
        have hpair := abs_le.mp habs
        constructor
        · rw [le_div_iff₀ hD]; nlinarith [hpair.1]
        · rw [div_le_one hD]; exact hpair.2
  · rintro rfl ⟨x, hx, hx0⟩
    have hpos : 0 < dot a a := dot_self_pos a x hx hx0
    have h1 : ¬ dot a a ≤ 0 := not_le.mpr hpos
    simp only [cs, h1, if_false]
    rw [Real.mul_self_sqrt (dot_self_nonneg a)]
    exact div_self (ne_of_gt hpos)

/-- C6 witness: the vector (1,0) paired with itself has equal length,
cosine similarity within bounds, and cosine similarity 1 with itself. -/
theorem C6_witness :
    (([(1:ℝ), 0].length = [(1:ℝ), 0].length)
      ∧ (-1 ≤ cs [(1:ℝ), 0] [(1:ℝ), 0] ∧ cs [(1:ℝ), 0] [(1:ℝ), 0] ≤ 1))
    ∧ cs [(1:ℝ), 0] [(1:ℝ), 0] = 1 := by
  refine ⟨⟨rfl, (C6_cs_properties [(1:ℝ), 0] [(1:ℝ), 0] rfl).2.1⟩, ?_⟩
  exact (C6_cs_properties [(1:ℝ), 0] [(1:ℝ), 0] rfl).2.2 rfl ⟨1, by simp, one_ne_zero⟩

lemma runMax_eq_foldl_max (values : List ℝ) : runMax values = values.foldl max 0 := by
  unfold runMax
  congr 1
  funext m v
  rcases lt_or_le m v with h | h
  · rw [if_pos h, max_eq_right h.le]
  · rw [if_neg (not_lt.mpr h), max_eq_left h]

lemma le_foldl_max (l : List ℝ) (init : ℝ) :
    init ≤ l.foldl max init ∧ ∀ x ∈ l, x ≤ l.foldl max init := by
  induction l generalizing init with
  | nil => simp
  | cons y l ih =>
    refine ⟨le_trans (le_max_left _ _) (ih (max init y)).1, ?_⟩
    intro x hx
    rcases List.mem_cons.mp hx with rfl | h
    · exact le_trans (le_max_right _ _) (ih (max init x)).1
    · exact (ih (max init y)).2 x h

lemma foldl_max_mem (l : List ℝ) (init : ℝ) :
    l.foldl max init = init ∨ l.foldl max init ∈ l := by
  induction l generalizing init with
  | nil => left; rfl
  | cons y l ih =>
    have hstep : (y :: l).foldl max init = l.foldl max (max init y) := rfl
    rcases ih (max init y) with h | h
    · rcases le_total init y with h1 | h1
      · right
        rw [hstep, h, max_eq_right h1]
        exact List.mem_cons_self y l
      · left
        rw [hstep, h, max_eq_left h1]
    · right
      rw [hstep]
      exact List.mem_cons_of_mem y h

lemma runMax_nonneg (values : List ℝ) : 0 ≤ runMax values := by
  rw [runMax_eq_foldl_max]
  exact (le_foldl_max values 0).1

lemma le_runMax (values : List ℝ) : ∀ x ∈ values, x ≤ runMax values := by
  rw [runMax_eq_foldl_max]
  exact (le_foldl_max values 0).2

lemma runMax_mem_or_zero (values : List ℝ) : runMax values = 0 ∨ runMax values ∈ values := by
  rw [runMax_eq_foldl_max]
  exact foldl_max_mem values 0

lemma sum_map_div (l : List ℝ) (c : ℝ) : (l.map (fun e => e / c)).sum = l.sum / c := by
  induction l with
  | nil => simp
  | cons x l ih => simp [ih, add_div]

lemma sum_map_const (l : List ℝ) (e : ℝ) : (l.map (fun _ => e)).sum = (l.length : ℝ) * e := by
  induction l with
  | nil => simp
  | cons x l ih =>
    simp only [List.map_cons, List.sum_cons, ih, List.length_cons]
    push_cast
    ring

lemma softmax_sum (values : List ℝ) (h : values ≠ []) : (softmax values).sum = 1 := by
  unfold softmax
  have hpos : ∀ x ∈ values.map (fun v => Real.exp (v - runMax values * S)), 0 < x := by
    intro x hx
    obtain ⟨v, _, rfl⟩ := List.mem_map.mp hx
    exact Real.exp_pos _
  have hne : values.map (fun v => Real.exp (v - runMax values * S)) ≠ [] := by
    simpa using h
  have hsum : 0 < (values.map (fun v => Real.exp (v - runMax values * S))).sum :=
    List.sum_pos _ hpos hne
  rw [sum_map_div]
  exact div_self (ne_of_gt hsum)

lemma mem_lt_sum (l : List ℝ) (e : ℝ) (he : e ∈ l) (hpos : ∀ x ∈ l, 0 < x)
    (hlen : 2 ≤ l.length) : e < l.sum := by
  have hperm := List.perm_cons_erase he
  have hsum : l.sum = e + (l.erase e).sum := by
    rw [List.Perm.sum_eq hperm, List.sum_cons]
  have hlen2 := List.length_erase_add_one he
  have hne : l.erase e ≠ [] := by
    intro h0
    rw [h0] at hlen2
    simp at hlen2
    omega
  have hepos : 0 < (l.erase e).sum :=
    List.sum_pos _ (fun x hx => hpos x (List.mem_of_mem_erase hx)) hne
  linarith

lemma two_le_length_of_two_mem {l : List ℝ} {u v : ℝ} (hu : u ∈ l) (hv : v ∈ l)
    (huv : u ≠ v) : 2 ≤ l.length := by
  cases l with
  | nil => simp at hu
  | cons x t =>
    cases t with
    | nil =>
      simp at hu hv
      exact absurd (hu.trans hv.symm) huv
    | cons y t => simp

lemma softmax_row_invariants (values : List ℝ) :
    (values ≠ [] → (softmax values).sum = 1)
    ∧ ((∃ u ∈ values, ∃ v ∈ values, u ≠ v) →
        ∀ y ∈ softmax values, 0 < y ∧ y < 1) := by
  refine ⟨softmax_sum values, ?_⟩
  rintro ⟨u, hu, v, hv, huv⟩ y hy
  have hlen : 2 ≤ values.length := two_le_length_of_two_mem hu hv huv
  have hy2 : ∃ e ∈ values.map (fun w => Real.exp (w - runMax values * S)),
      y = e / (values.map (fun w => Real.exp (w - runMax values * S))).sum := by
    simp only [softmax] at hy
    obtain ⟨e, he, rfl⟩ := List.mem_map.mp hy
    exact ⟨e, he, rfl⟩
  obtain ⟨e, he, rfl⟩ := hy2
  have hpos : ∀ x ∈ values.map (fun w => Real.exp (w - runMax values * S)), 0 < x := by
    intro x hx
    obtain ⟨w, _, rfl⟩ := List.mem_map.mp hx
    exact Real.exp_pos _
  have hvne : values ≠ [] := by
    intro h0
    rw [h0] at hlen
    simp at hlen
  have hne : values.map (fun w => Real.exp (w - runMax values * S)) ≠ [] := by
    simpa using hvne
  have hsum : 0 < (values.map (fun w => Real.exp (w - runMax values * S))).sum :=
    List.sum_pos _ hpos hne
  have hlt : e < (values.map (fun w => Real.exp (w - runMax values * S))).sum := by
    refine mem_lt_sum _ e he hpos ?_
    simpa using hlen
  exact ⟨div_pos (hpos e he) hsum, (div_lt_one hsum).mpr hlt⟩

/-- C4: softmax of a constant nonempty row is the uniform distribution
assigning 1/n to each of the n entries. -/
theorem C4_softmax_constant (values : List ℝ) (c : ℝ) (hne : values ≠ [])
    (hc : ∀ x ∈ values, x = c) :
    softmax values = values.map (fun _ => 1 / (values.length : ℝ)) := by
  have hmap : values.map (fun v => Real.exp (v - runMax values * S))
      = values.map (fun _ => Real.exp (c - runMax values * S)) := by
    apply List.map_congr_left
    intro x hx
    rw [hc x hx]
  have hsum : (values.map (fun _ => Real.exp (c - runMax values * S))).sum
      = (values.length : ℝ) * Real.exp (c - runMax values * S) :=
    sum_map_const values _
  have hE : Real.exp (c - runMax values * S) ≠ 0 := (Real.exp_pos _).ne'
  have hn : (values.length : ℝ) ≠ 0 := by
    have : values.length ≠ 0 := fun h0 => hne (List.length_eq_zero.mp h0)
    exact_mod_cast this
  simp only [softmax]
  rw [hmap, hsum, List.map_map]
  apply List.map_congr_left
  intro x _
  simp only [Function.comp]
  rw [div_eq_div_iff (by positivity) hn]
  ring

/-- C4 witness: softmax of the two-element tie (5, 5) is (1/2, 1/2). -/
theorem C4_witness : softmax [(5:ℝ), 5] = [1/2, 1/2] := by
  have h := C4_softmax_constant [(5:ℝ), 5] 5 (by simp)
    (by intro x hx; simp at hx; simp [hx])
  simp at h
  norm_num at h
  exact h

/-- C10: the running maximum that shifts the softmax is at least 0 and at
least every entry, and is either 0 or an entry; over a nonempty row of
nonnegative entries it is the true row maximum, over an all-negative row
it is 0, and in either case the softmax output still sums to 1. -/
theorem C10_shift_base (values : List ℝ) :
    (0 ≤ runMax values ∧ (∀ x ∈ values, x ≤ runMax values)
      ∧ (runMax values = 0 ∨ runMax values ∈ values))
    ∧ (values ≠ [] → (∀ x ∈ values, 0 ≤ x) →
        runMax values ∈ values ∧ ∀ x ∈ values, x ≤ runMax values)
    ∧ ((∀ x ∈ values, x < 0) → runMax values = 0)
    ∧ (values ≠ [] → (softmax values).sum = 1) := by
  refine ⟨⟨runMax_nonneg values, le_runMax values, runMax_mem_or_zero values⟩,
    ?_, ?_, softmax_sum values⟩
  · intro hne hnn
    rcases runMax_mem_or_zero values with h0 | hmem
    · obtain ⟨y, hy⟩ := List.exists_mem_of_ne_nil values hne
      have h1 : y ≤ 0 := by
        have := le_runMax values y hy
        rw [h0] at this
        exact this
      have h2 : y = 0 := le_antisymm h1 (hnn y hy)
      refine ⟨?_, fun x hx => le_runMax values x hx⟩
      rw [h0, ← h2]
      exact hy
    · exact ⟨hmem, fun x hx => le_runMax values x hx⟩
  · intro hneg
    rcases runMax_mem_or_zero values with h0 | hmem
    · exact h0
    · have h1 := hneg _ hmem
      have h2 := runMax_nonneg values
      linarith

/-- C10 witness: for the nonnegative row (1, 2) the shift base is an
entry of the row and the softmax still sums to 1. -/
theorem C10_witness :
    (([(1:ℝ), 2] ≠ []) ∧ (∀ x ∈ [(1:ℝ), 2], 0 ≤ x))
    ∧ (runMax [(1:ℝ), 2] ∈ [(1:ℝ), 2] ∧ (softmax [(1:ℝ), 2]).sum = 1) := by
  have hnn : ∀ x ∈ [(1:ℝ), 2], 0 ≤ x := by
    intro x hx
    simp at hx
    rcases hx with rfl | rfl <;> norm_num
  refine ⟨⟨by simp, hnn⟩, ?_, ?_⟩
  · exact ((C10_shift_base [(1:ℝ), 2]).2.1 (by simp) hnn).1
  · exact (C10_shift_base [(1:ℝ), 2]).2.2.2 (by simp)

lemma softmax_length (values : List ℝ) : (softmax values).length = values.length := by
  simp [softmax]

lemma softmaxLoop_adj {n : ℕ} (l : List (Fin n)) (h : Heap n) :
    (l.foldl softmaxStep h).adj = h.adj := by
  induction l generalizing h with
  | nil => rfl
  | cons r l ih =>
    rw [List.foldl_cons, ih]
    rfl

lemma foldl_step_not_mem {n : ℕ} (l : List (Fin n)) (h : Heap n) (r : Fin n) (hr : r ∉ l) :
    (l.foldl softmaxStep h).cp r = h.cp r := by
  induction l generalizing h with
  | nil => rfl
  | cons a l ih =>
    have hne : r ≠ a := fun e => hr (e ▸ List.mem_cons_self a l)
    rw [List.foldl_cons, ih _ (fun hm => hr (List.mem_cons_of_mem a hm))]
    exact Matrix.updateRow_ne hne

lemma foldl_row_char {n : ℕ} (l : List (Fin n)) (h : Heap n) (hn : l.Nodup) (r : Fin n)
    (hr : r ∈ l) :
    (l.foldl softmaxStep h).cp r = fun j : Fin n => (softmax (rowList h.cp r)).getD (j : ℕ) 0 := by
  induction l generalizing h with
  | nil => simp at hr
  | cons a l ih =>
    rw [List.foldl_cons]
    rcases List.mem_cons.mp hr with rfl | hrt
    · have hnt : r ∉ l := (List.nodup_cons.mp hn).1
      rw [foldl_step_not_mem l _ r hnt]
      exact Matrix.updateRow_self
    · have hne : r ≠ a := by
        rintro rfl
        exact (List.nodup_cons.mp hn).1 hrt
      rw [ih _ (List.nodup_cons.mp hn).2 hrt]
      have hrow : rowList (softmaxStep h a).cp r = rowList h.cp r := by
        unfold rowList softmaxStep
        exact congrArg (fun g => List.map g (List.finRange n)) (Matrix.updateRow_ne hne)
      simp only [hrow]

lemma getD_reconstruct (s : List ℝ) (n : ℕ) (hlen : s.length = n) :
    (List.finRange n).map (fun j : Fin n => s.getD (j : ℕ) 0) = s := by
  apply List.ext_getElem
  · simp [hlen]
  · intro i h1 h2
    simp only [List.getElem_map, List.getElem_finRange]
    exact List.getD_eq_getElem _ _ h2

/-- Attention-matrix row r inside process: row r of the cp matrix after
the softmax loop has run. -/
noncomputable def attentionRow {n d : ℕ} (a : Matrix (Fin n) (Fin d) ℝ) (r : Fin n) : List ℝ :=
  rowList (processHeap a).cp r

lemma attentionRow_eq {n d : ℕ} (a : Matrix (Fin n) (Fin d) ℝ) (r : Fin n) :
    attentionRow a r = softmax (rowList (gram a) r) := by
  unfold attentionRow processHeap softmaxLoop rowList
  rw [foldl_row_char (List.finRange n) _ (List.nodup_finRange n) r (List.mem_finRange r)]
  have hl : (softmax (rowList (gram a) r)).length = n := by
    rw [softmax_length]
    simp [rowList]
  exact getD_reconstruct _ n hl

lemma rowList_ne_nil {n : ℕ} (M : Matrix (Fin n) (Fin n) ℝ) (r : Fin n) :
    rowList M r ≠ [] := by
  have hn : n ≠ 0 := r.pos.ne'
  unfold rowList
  intro h0
  have := congrArg List.length h0
  simp at this
  exact hn this

/-- C3: every row of the attention matrix produced by the row-wise
softmax sums to 1, and whenever the underlying Gram row holds at least
two distinct values every entry of that attention row lies strictly
between 0 and 1. -/
theorem C3_attention_row_invariants {n d : ℕ} (a : Matrix (Fin n) (Fin d) ℝ) (r : Fin n) :
    (attentionRow a r).sum = 1
    ∧ ((∃ u ∈ rowList (gram a) r, ∃ v ∈ rowList (gram a) r, u ≠ v) →
        ∀ y ∈ attentionRow a r, 0 < y ∧ y < 1) := by
  rw [attentionRow_eq]
  exact ⟨(softmax_row_invariants _).1 (rowList_ne_nil _ r),
    (softmax_row_invariants _).2⟩

/-- C9: the matrix handed to the eigen-decomposition is the raw Gram
matrix, unchanged by the softmax loop, which rewrote only the rows of the
copied matrix into softmax rows. -/
theorem C9_softmax_mutates_only_copy {n d : ℕ} (a : Matrix (Fin n) (Fin d) ℝ) :
    factorizeInput a = gram a
    ∧ ∀ r : Fin n, attentionRow a r = softmax (rowList (gram a) r) := by
  refine ⟨?_, fun r => attentionRow_eq a r⟩
  unfold factorizeInput processHeap softmaxLoop
  exact softmaxLoop_adj _ _

lemma gram_aEx : gram aEx = Matrix.of !![(1:ℝ), 0; 0, 4] := by
  ext i j
  fin_cases i <;> fin_cases j <;>
    simp [gram, aEx, Matrix.mul_apply, Fin.sum_univ_four, Matrix.transpose_apply] <;>
    norm_num

lemma rowList_gram_aEx : rowList (gram aEx) 0 = [1, 0] := by
  rw [gram_aEx]
  unfold rowList
  have hfr : List.finRange 2 = [0, 1] := by decide
  rw [hfr]
  simp

/-- C3 witness: for the concrete data matrix aEx, the Gram row 0 is
(1, 0) with two distinct values, and attention row 0 sums to 1 with every
entry strictly between 0 and 1. -/
theorem C3_witness :
    ((1:ℝ) ∈ rowList (gram aEx) 0 ∧ (0:ℝ) ∈ rowList (gram aEx) 0 ∧ (1:ℝ) ≠ 0)
    ∧ ((attentionRow aEx 0).sum = 1
      ∧ ∀ y ∈ attentionRow aEx 0, 0 < y ∧ y < 1) := by
  refine ⟨⟨by rw [rowList_gram_aEx]; simp, by rw [rowList_gram_aEx]; simp, by norm_num⟩,
    (C3_attention_row_invariants aEx 0).1, ?_⟩
  exact (C3_attention_row_invariants aEx 0).2
    ⟨1, by rw [rowList_gram_aEx]; simp, 0, by rw [rowList_gram_aEx]; simp, by norm_num⟩

lemma foldl_count (q : ℤ → Prop) [DecidablePred q] (l : List ℤ) (init : ℕ) :
    l.foldl (fun c s => if q s then c + 1 else c) init
      = init + l.countP (fun s => decide (q s)) := by
  induction l generalizing init with
  | nil => simp
  | cons x l ih =>
    rw [List.foldl_cons, ih, List.countP_cons]
    by_cases hx : q x <;> simp [hx] <;> omega

/-- C2: the suite counts one reference trial plus the 128 seeded trials,
the seed list is exactly the integers 1 through 128, a trial is counted
exactly when its similarity is strictly below the threshold 0.95, and the
reported denominator is the 129 trials. -/
theorem C2_trial_suite (refSim : ℝ) (p : ℤ → ℝ) :
    runSuite refSim p
      = (if refSim < threshold then 1 else 0)
        + suiteSeeds.countP (fun s => decide (p s < threshold))
    ∧ suiteSeeds.length = 128
    ∧ (∀ s : ℤ, s ∈ suiteSeeds ↔ 1 ≤ s ∧ s ≤ 128)
    ∧ threshold = 95 / 100
    ∧ totalCount = suiteSeeds.length + 1 := by
  have hlen : suiteSeeds.length = 128 := by
    unfold suiteSeeds
    rw [List.length_map, List.length_range]
  refine ⟨?_, hlen, ?_, by norm_num [threshold], by rw [hlen]; rfl⟩
  · unfold runSuite
    exact foldl_count (fun s => p s < threshold) suiteSeeds _
  · intro s
    constructor
    · intro hs
      simp only [suiteSeeds, List.mem_map, List.mem_range] at hs
      obtain ⟨i, hi, hset⟩ := hs
      omega
    · intro hs
      simp only [suiteSeeds, List.mem_map, List.mem_range]
      exact ⟨(s - 1).toNat, by omega, by omega⟩

/-- C8: the synthetic provider is a pure function of the seed and the
generator stream: two streams that agree at the seed produce identical
vector sets, and each set holds 150 records of 4 measures drawn from the
stream, lying in the interval from 0 inclusive to 1 exclusive whenever
the stream does. -/
theorem C8_random_reproducible (stream stream2 : ℤ → ℕ → ℝ) (seed : ℤ)
    (hsame : stream seed = stream2 seed) :
    Random stream seed = Random stream2 seed
    ∧ (Random stream seed).length = 150
    ∧ (∀ f ∈ Random stream seed, f.Measures.length = 4)
    ∧ (Set.range (stream seed) ⊆ Set.Ico 0 1 →
        ∀ f ∈ Random stream seed, ∀ x ∈ f.Measures, x ∈ Set.Ico (0:ℝ) 1) := by
  refine ⟨?_, by simp [Random], ?_, ?_⟩
  · unfold Random
    simp only [hsame]
  · intro f hf
    simp only [Random, List.mem_map] at hf
    obtain ⟨i, _, rfl⟩ := hf
    simp
  · intro hr f hf x hx
    simp only [Random, List.mem_map] at hf
    obtain ⟨i, _, rfl⟩ := hf
    simp only [List.mem_map] at hx
    obtain ⟨ii, _, rfl⟩ := hx
    exact hr ⟨4 * i + ii, rfl⟩

/-- Constant stream returning one half, used to instantiate the
reproducibility statement. -/
noncomputable def constHalfStream : ℤ → ℕ → ℝ := fun _ _ => 1 / 2

/-- C8 witness: the constant one-half stream agrees with itself, stays
inside the unit interval, and yields 150 records of 4 measures. -/
theorem C8_witness :
    (constHalfStream 0 = constHalfStream 0
      ∧ Set.range (constHalfStream 0) ⊆ Set.Ico (0:ℝ) 1)
    ∧ ((Random constHalfStream 0).length = 150
      ∧ ∀ f ∈ Random constHalfStream 0, f.Measures.length = 4) := by
  have hsub : Set.range (constHalfStream 0) ⊆ Set.Ico (0:ℝ) 1 := by
    intro x hx
    obtain ⟨k, rfl⟩ := hx
    norm_num [constHalfStream]
  exact ⟨⟨rfl, hsub⟩, (C8_random_reproducible constHalfStream constHalfStream 0 rfl).2.1,
    (C8_random_reproducible constHalfStream constHalfStream 0 rfl).2.2.1⟩

/-- C1: the signal process compares against the attention output is read
from eigenvector column 0 unconditionally, yet for the Gram matrix of the
concrete data matrix aEx there is a valid decomposition result whose
column 0 is paired with the strictly smaller eigenvalue; in it the code's
compared signal differs from the dominant eigenvector's magnitudes, so
the compared eigenvector is not in general the dominant one. -/
theorem C1_column_zero_not_dominant :
    IsEigenDecomp (gram aEx) resEx
    ∧ Complex.abs (resEx.values 0) < Complex.abs (resEx.values 1)
    ∧ IsDominantIndex resEx 1
    ∧ codeSignal resEx ≠ specDominantSignal resEx 1 := by
  refine ⟨?_, ?_, ?_, ?_⟩
  · intro k
    constructor
    · fin_cases k
      · intro h
        have h0 := congrFun h 0
        simp [resEx] at h0
      · intro h
        have h1 := congrFun h 1
        simp [resEx] at h1
    · rw [gram_aEx]
      fin_cases k <;> funext r <;> fin_cases r <;>
        simp [Matrix.mulVec, Matrix.dotProduct, Fin.sum_univ_two, resEx,
          Matrix.map_apply]
  · simp [resEx]
  · intro m
    fin_cases m <;> simp [resEx, IsDominantIndex]
  · intro h
    have h0 := congrFun h 0
    simp [codeSignal, specDominantSignal, resEx] at h0

end Lemma
